import Mathlib

/-!
Verification of the expression-tree library (ExprTree.cpp) against its
natural-language specification.

The C++ source is shallowly embedded:
  * `std::string` values become Lean `String`s; character scans work on `.data`.
  * C++ `int` is modelled as unbounded `Int` (no claim hinges on overflow);
    C++ integer division truncates toward zero, which is `Int.div`.
  * Undefined behaviour (null-pointer dereference, `top`/`pop` on an empty
    `std::stack`, division by zero) is modelled by `Option`/`none`: a function
    that can hit UB returns `Option _`, and `none` marks the UB execution.
  * `TreeNode` (declared in ExprTree.h, which is not part of the sources) is
    modelled from the spec's data model, with exactly the fields and accessors
    ExprTree.cpp uses.
-/

/-- Embeds the helper `isdigit(const char&)` of ExprTree.cpp: a switch over
the ten decimal digit characters. -/
def isdigit (c : Char) : Bool :=
  c = '0' ∨ c = '1' ∨ c = '2' ∨ c = '3' ∨ c = '4' ∨
  c = '5' ∨ c = '6' ∨ c = '7' ∨ c = '8' ∨ c = '9'

/-- Embeds `is_number(const std::string&)`: true iff the string is non-empty
and every character is a decimal digit. -/
def is_number (s : String) : Bool :=
  !s.data.isEmpty && s.data.all isdigit

/-- Numeric value of a digit character (used to model `atoi`). -/
def digitVal (c : Char) : Nat :=
  if c = '0' then 0 else if c = '1' then 1 else if c = '2' then 2
  else if c = '3' then 3 else if c = '4' then 4 else if c = '5' then 5
  else if c = '6' then 6 else if c = '7' then 7 else if c = '8' then 8
  else if c = '9' then 9 else 0

/-- Embeds `to_number`, i.e. `atoi`, on the strings the program feeds it:
`to_number` is only ever called on tokens for which `is_number` holds (see
`buildTree`), and on an all-digit string `atoi` returns the decimal value. -/
def to_number (s : String) : Int :=
  Int.ofNat (s.data.foldl (fun a c => a * 10 + digitVal c) 0)

/-- The `Operator` enumeration from ExprTree.h (its six tags are fixed by
their uses in ExprTree.cpp). -/
inductive Operator : Type where
  | Value | Plus | Minus | Times | Divide | NoOp
deriving DecidableEq, Repr

/-- Modelled from the spec: `TreeNode` (declared in ExprTree.h, not in the
sources) is a node with an operator tag, an integer value (meaningful for
`Value` nodes) and owned left/right child pointers, which may be null. -/
inductive TreeNode : Type where
  | mk (op : Operator) (value : Int) (left : Option TreeNode)
      (right : Option TreeNode)
deriving Repr

def TreeNode.getOperator : TreeNode → Operator
  | .mk op _ _ _ => op

def TreeNode.getValue : TreeNode → Int
  | .mk _ v _ _ => v

def TreeNode.getLeftChild : TreeNode → Option TreeNode
  | .mk _ _ l _ => l

def TreeNode.getRightChild : TreeNode → Option TreeNode
  | .mk _ _ _ r => r

def TreeNode.setLeftChild : TreeNode → Option TreeNode → TreeNode
  | .mk op v _ r, l => .mk op v l r

def TreeNode.setRightChild : TreeNode → Option TreeNode → TreeNode
  | .mk op v l _, r => .mk op v l r

/-- Decimal digits of a natural number, most significant first. The first
argument is recursion fuel; `n + 1` fuel always suffices. -/
def natChars : Nat → Nat → List Char
  | 0, _ => []
  | fuel + 1, n =>
    if n < 10 then [Char.ofNat (48 + n)]
    else natChars fuel (n / 10) ++ [Char.ofNat (48 + n % 10)]

/-- Modelled from the spec: rendering an integer as its decimal numeral
(the effect of `std::stringstream << int` in `to_string(const int&)` and in
`TreeNode::toString` from the missing ExprTree.h). -/
def intToString (n : Int) : String :=
  if n < 0 then ⟨'-' :: natChars (n.natAbs + 1) n.natAbs⟩
  else ⟨natChars (n.toNat + 1) n.toNat⟩

/-- Modelled from the spec: `TreeNode::toString` (ExprTree.h is not in the
sources). A `Value` node renders as its numeral; an operator node renders as
its single-character symbol. `NoOp` is never rendered (the renderers return
the empty string before consulting it). -/
def TreeNode.toString : TreeNode → String
  | .mk .Value v _ _ => intToString v
  | .mk .Plus _ _ _ => "+"
  | .mk .Minus _ _ _ => "-"
  | .mk .Times _ _ _ => "*"
  | .mk .Divide _ _ _ => "/"
  | .mk .NoOp _ _ _ => ""

/-- Embeds `createOperatorNode`: maps the four operator strings to operator
nodes and anything else to a `NoOp` node. The value field of a freshly
constructed operator node is never read by `evaluate` or the renderers, so it
is modelled as `0`; the children start null and are set by `buildTree`. -/
def createOperatorNode (op : String) : TreeNode :=
  if op = "+" then .mk .Plus 0 none none
  else if op = "-" then .mk .Minus 0 none none
  else if op = "*" then .mk .Times 0 none none
  else if op = "/" then .mk .Divide 0 none none
  else .mk .NoOp 0 none none

/-- Embeds `countSize`: the number of nodes reachable from a (possibly null)
node pointer. Returns `Int` because the C++ function returns `int`. -/
def countSize : Option TreeNode → Int
  | none => 0
  | some (.mk _ _ l r) => countSize l + countSize r + 1

/-- Embeds the `ExprTree` class data: an optional root and the size cached by
the constructors. -/
structure ExprTree : Type where
  root : Option TreeNode
  _size : Int
deriving Repr

/-- Embeds the default constructor `ExprTree::ExprTree()`. -/
def ExprTree.new : ExprTree := ⟨none, countSize none⟩

/-- Embeds the converting constructor `ExprTree::ExprTree(TreeNode*)`, which
stores the root and caches `countSize` of it. (This constructor is not
`explicit`: `buildTree` returns raw `TreeNode*` values through it.) -/
def ExprTree.ofRoot (r : Option TreeNode) : ExprTree := ⟨r, countSize r⟩

def ExprTree.size (t : ExprTree) : Int := t._size

def ExprTree.isEmpty (t : ExprTree) : Bool := t._size = 0

def ExprTree.getRoot (t : ExprTree) : Option TreeNode := t.root

/-- One iteration of the scan loop of `ExprTree::tokenise`: skip the space
character; append a digit to the previous token when that token is a number;
otherwise start a fresh single-character token. -/
def tokeniseStep (vec : List String) (c : Char) : List String :=
  if c = ' ' then vec
  else
    match vec.getLast? with
    | some lastTok =>
      if isdigit c && is_number lastTok then
        vec.dropLast ++ [lastTok.push c]
      else vec ++ [⟨[c]⟩]
    | none => vec ++ [⟨[c]⟩]

/-- Embeds `ExprTree::tokenise`: scan the characters left to right, folding
`tokeniseStep` over them. -/
def ExprTree.tokenise (expression : String) : List String :=
  expression.data.foldl tokeniseStep []

/-- Embeds `getPrecedence`: `(` is 0, additive operators are 1,
multiplicative operators are 2, anything else is 3. -/
def getPrecedence (op : String) : Nat :=
  if op = "(" then 0
  else if op = "+" ∨ op = "-" then 1
  else if op = "*" ∨ op = "/" then 2
  else 3

/-- Embeds the close-parenthesis loop of `to_postfix`: pop stack entries to
the output until the matching `(` is found, then pop the `(` as well.
Calling `top` on an empty `std::stack` is undefined behaviour, modelled as
`none`. -/
def popToParen : List String → List String → Option (List String × List String)
  | [], _ => none
  | t :: st, out =>
    if t = "(" then some (st, out) else popToParen st (out ++ [t])

/-- Embeds the operator loop of `to_postfix`: while the stack is non-empty
and its top has precedence greater than or equal to `p`, pop the top to the
output. Returns the remaining stack and the extended output. -/
def popGE (p : Nat) : List String → List String → List String × List String
  | [], out => ([], out)
  | t :: st, out =>
    if p ≤ getPrecedence t then popGE p st (out ++ [t]) else (t :: st, out)

/-- Embeds the main scan loop of `to_postfix` plus its final flush: the state
is the remaining tokens, the operator stack (head is the stack top) and the
output accumulated so far. -/
def toPostfixLoop : List String → List String → List String → Option (List String)
  | [], st, out => some (out ++ st)
  | t :: ts, st, out =>
    if t = "(" then toPostfixLoop ts (t :: st) out
    else if t = ")" then
      match popToParen st out with
      | none => none
      | some (st', out') => toPostfixLoop ts st' out'
    else if is_number t then toPostfixLoop ts st (out ++ [t])
    else
      match popGE (getPrecedence t) st out with
      | (st', out') => toPostfixLoop ts (t :: st') out'

/-- Embeds `to_postfix`: run the scan loop with an empty stack and output.
`none` marks the undefined behaviour of popping an empty stack on an
unmatched close parenthesis. -/
def toPostfixConv (tokens : List String) : Option (List String) :=
  toPostfixLoop tokens [] []

/-- Embeds the node-stack loop of `ExprTree::buildTree`: numbers push value
leaves; any other token becomes an operator node whose right child is the
stack top and whose left child is the next entry. Calling `top` on a stack
with fewer than two entries is undefined behaviour, modelled as `none`. -/
def buildLoop : List String → List TreeNode → Option (List TreeNode)
  | [], ns => some ns
  | t :: ts, ns =>
    if is_number t then
      buildLoop ts (.mk .Value (to_number t) none none :: ns)
    else
      match ns with
      | r :: l :: tl =>
        buildLoop ts
          (((createOperatorNode t).setRightChild (some r)).setLeftChild (some l) :: tl)
      | _ => none

/-- Embeds `ExprTree::buildTree`: convert to postfix, run the node-stack
loop, and wrap the result through the `ExprTree(TreeNode*)` constructor —
`NULL` for an empty stack, the stack top otherwise. `none` marks undefined
behaviour inherited from `to_postfix` or from popping a short node stack. -/
def ExprTree.buildTree (tokens : List String) : Option ExprTree :=
  match toPostfixConv tokens with
  | none => none
  | some post =>
    match buildLoop post [] with
    | none => none
    | some [] => some (ExprTree.ofRoot none)
    | some (n :: _) => some (ExprTree.ofRoot (some n))

/-- Embeds `ExprTree::evaluate(TreeNode*)`. Dereferencing a null pointer and
dividing by zero are undefined behaviour, modelled as `none`; the switch
falls through to `return n->getValue()` for `Value` and `NoOp` nodes. C++
`int` division truncates toward zero, i.e. `Int.div`. -/
def ExprTree.evaluate : Option TreeNode → Option Int
  | none => none
  | some (.mk op v l r) =>
    match op with
    | .Plus =>
      (ExprTree.evaluate l).bind fun a =>
        (ExprTree.evaluate r).bind fun b => some (a + b)
    | .Minus =>
      (ExprTree.evaluate l).bind fun a =>
        (ExprTree.evaluate r).bind fun b => some (a - b)
    | .Times =>
      (ExprTree.evaluate l).bind fun a =>
        (ExprTree.evaluate r).bind fun b => some (a * b)
    | .Divide =>
      (ExprTree.evaluate l).bind fun a =>
        (ExprTree.evaluate r).bind fun b =>
          if b = 0 then none else some (Int.tdiv a b)
    | _ => some v

/-- Embeds `ExprTree::evaluateWholeTree`: evaluate the root pointer. -/
def ExprTree.evaluateWholeTree (t : ExprTree) : Option Int :=
  ExprTree.evaluate t.root

/-- Embeds the recursion of `ExprTree::prefixOrder` on a (possibly null)
node pointer: the recursive calls pass raw child pointers where a
`const ExprTree&` is expected, so a null child or root is dereferenced —
undefined behaviour, modelled as `none`. This pure model captures the string
the C++ code computes; the heap effects of the implicitly constructed
temporary `ExprTree` objects are modelled separately below. -/
def prefixOrderN : Option TreeNode → Option String
  | none => none
  | some (.mk op v l r) =>
    match op with
    | .Value => some (TreeNode.toString (.mk .Value v l r))
    | .Plus | .Minus | .Times | .Divide =>
      (prefixOrderN l).bind fun ls =>
        (prefixOrderN r).bind fun rs =>
          some (TreeNode.toString (.mk op v l r) ++ " " ++ ls ++ " " ++ rs)
    | .NoOp => some ""

/-- Embeds `ExprTree::prefixOrder(const ExprTree&)`. -/
def ExprTree.prefixOrder (t : ExprTree) : Option String :=
  prefixOrderN t.root

/-- Embeds the recursion of `ExprTree::infixOrder` (same conventions as
`prefixOrderN`). -/
def infixOrderN : Option TreeNode → Option String
  | none => none
  | some (.mk op v l r) =>
    match op with
    | .Value => some (TreeNode.toString (.mk .Value v l r))
    | .Plus | .Minus | .Times | .Divide =>
      (infixOrderN l).bind fun ls =>
        (infixOrderN r).bind fun rs =>
          some (ls ++ " " ++ TreeNode.toString (.mk op v l r) ++ " " ++ rs)
    | .NoOp => some ""

/-- Embeds `ExprTree::infixOrder(const ExprTree&)`. -/
def ExprTree.infixOrder (t : ExprTree) : Option String :=
  infixOrderN t.root

/-- Embeds the recursion of `ExprTree::postfixOrder` (same conventions as
`prefixOrderN`). -/
def postfixOrderN : Option TreeNode → Option String
  | none => none
  | some (.mk op v l r) =>
    match op with
    | .Value => some (TreeNode.toString (.mk .Value v l r))
    | .Plus | .Minus | .Times | .Divide =>
      (postfixOrderN l).bind fun ls =>
        (postfixOrderN r).bind fun rs =>
          some (ls ++ " " ++ rs ++ " " ++ TreeNode.toString (.mk op v l r))
    | .NoOp => some ""

/-- Embeds `ExprTree::postfixOrder(const ExprTree&)`. -/
def ExprTree.postfixOrder (t : ExprTree) : Option String :=
  postfixOrderN t.root

/-!
Reference semantics for claims about well-formed input.

A well-formed infix token sequence is one generated by the standard
unambiguous expression grammar

    E -> E + T | E - T | T        (level 0, additive)
    T -> T * F | T / F | F        (level 1, multiplicative)
    F -> number | ( E )           (level 2, atoms)

which encodes the standard precedence (`*`, `/` bind tighter than `+`, `-`)
and left-to-right associativity among equal-precedence operators. `Parses d
ts e` says the token list `ts` derives from the level-`d` nonterminal with
abstract syntax `e`, and `refEval` is the mathematical meaning of `e` with
truncating integer division (`none` when a division by zero occurs, since no
integer result exists there).
-/

/-- Abstract syntax of arithmetic expressions; a leaf keeps the number token
it was read from. -/
inductive Expr : Type where
  | num (s : String)
  | add (l r : Expr)
  | sub (l r : Expr)
  | mul (l r : Expr)
  | div (l r : Expr)
deriving Repr

/-- Mathematical meaning of an expression: ordinary integer arithmetic with
truncating division, undefined (`none`) on division by zero. -/
def refEval : Expr → Option Int
  | .num s => some (to_number s)
  | .add l r =>
    (refEval l).bind fun a => (refEval r).bind fun b => some (a + b)
  | .sub l r =>
    (refEval l).bind fun a => (refEval r).bind fun b => some (a - b)
  | .mul l r =>
    (refEval l).bind fun a => (refEval r).bind fun b => some (a * b)
  | .div l r =>
    (refEval l).bind fun a => (refEval r).bind fun b =>
      if b = 0 then none else some (Int.tdiv a b)

/-- The postfix rendering of an expression: operands left to right, each
operator after its operands. -/
def Expr.postfixTokens : Expr → List String
  | .num s => [s]
  | .add l r => l.postfixTokens ++ r.postfixTokens ++ ["+"]
  | .sub l r => l.postfixTokens ++ r.postfixTokens ++ ["-"]
  | .mul l r => l.postfixTokens ++ r.postfixTokens ++ ["*"]
  | .div l r => l.postfixTokens ++ r.postfixTokens ++ ["/"]

/-- The expression tree that `buildTree` should construct for an
expression. -/
def treeOf : Expr → TreeNode
  | .num s => .mk .Value (to_number s) none none
  | .add l r => .mk .Plus 0 (some (treeOf l)) (some (treeOf r))
  | .sub l r => .mk .Minus 0 (some (treeOf l)) (some (treeOf r))
  | .mul l r => .mk .Times 0 (some (treeOf l)) (some (treeOf r))
  | .div l r => .mk .Divide 0 (some (treeOf l)) (some (treeOf r))

/-- Number of abstract syntax nodes (operands plus operators). -/
def Expr.numNodes : Expr → Int
  | .num _ => 1
  | .add l r => l.numNodes + r.numNodes + 1
  | .sub l r => l.numNodes + r.numNodes + 1
  | .mul l r => l.numNodes + r.numNodes + 1
  | .div l r => l.numNodes + r.numNodes + 1

/-- Every numeric leaf carries an all-digit token. -/
def Expr.wf : Expr → Prop
  | .num s => is_number s = true
  | .add l r => l.wf ∧ r.wf
  | .sub l r => l.wf ∧ r.wf
  | .mul l r => l.wf ∧ r.wf
  | .div l r => l.wf ∧ r.wf

/-- `Parses d ts e`: token list `ts` is derived from grammar level `d`
(0 = additive expression, 1 = multiplicative term, 2 = atom) with abstract
syntax `e`. This is the standard unambiguous grammar for infix arithmetic:
left-recursive productions give left-to-right associativity, and the level
structure gives `*`, `/` precedence over `+`, `-`. -/
inductive Parses : Nat → List String → Expr → Prop where
  | num (s : String) (hs : is_number s = true) : Parses 2 [s] (.num s)
  | paren {ts e} (h : Parses 0 ts e) : Parses 2 ("(" :: ts ++ [")"]) e
  | atomT {ts e} (h : Parses 2 ts e) : Parses 1 ts e
  | termE {ts e} (h : Parses 1 ts e) : Parses 0 ts e
  | mulT {ts1 ts2 l r} (h1 : Parses 1 ts1 l) (h2 : Parses 2 ts2 r) :
      Parses 1 (ts1 ++ "*" :: ts2) (.mul l r)
  | divT {ts1 ts2 l r} (h1 : Parses 1 ts1 l) (h2 : Parses 2 ts2 r) :
      Parses 1 (ts1 ++ "/" :: ts2) (.div l r)
  | addE {ts1 ts2 l r} (h1 : Parses 0 ts1 l) (h2 : Parses 1 ts2 r) :
      Parses 0 (ts1 ++ "+" :: ts2) (.add l r)
  | subE {ts1 ts2 l r} (h1 : Parses 0 ts1 l) (h2 : Parses 1 ts2 r) :
      Parses 0 (ts1 ++ "-" :: ts2) (.sub l r)

/-- The token is one of the four binary operator symbols. -/
def BinTok (t : String) : Prop :=
  t = "+" ∨ t = "-" ∨ t = "*" ∨ t = "/"

/-- Barrier condition on the operator stack for processing a level-`d`
phrase: the stack is empty or its top has precedence at most `d`, so the
phrase's own operators stop popping at it. -/
def Barrier (d : Nat) : List String → Prop
  | [] => True
  | t :: _ => getPrecedence t < d + 1

/-!
Heap model of the renderers.

The recursive calls in `ExprTree::prefixOrder` (and the other renderers)
pass `t.root->getLeftChild()` — a raw `TreeNode*` — where a
`const ExprTree&` parameter is expected. Because `ExprTree(TreeNode*)` is
not `explicit` (`buildTree` returns raw pointers through it), each call
materialises a temporary `ExprTree` owning that child. When the temporary is
destroyed at the end of the enclosing full-expression, `ExprTree::~ExprTree`
runs `delete root`, destroying the child subtree (per the spec's data model,
destruction recursively releases all owned children; the `TreeNode`
destructor itself is in the missing ExprTree.h). The pure model above cannot
express this, so the heap model makes node ownership explicit: nodes live at
addresses in a heap, and deletion removes them.
-/

/-- A tree node as stored in the heap: children are addresses (pointers),
`none` being the null pointer. -/
structure NodeH : Type where
  op : Operator
  value : Int
  left : Option Nat
  right : Option Nat
deriving DecidableEq, Repr

/-- A heap: what node, if any, is allocated at each address. -/
def Heap : Type := Nat → Option NodeH

/-- Remove the node at address `a` from the heap. -/
def Heap.free (h : Heap) (a : Nat) : Heap :=
  fun x => if x = a then none else h x

/-- Modelled from the spec: `delete root` in `ExprTree::~ExprTree` releases
the whole subtree rooted at the given address (the spec's data model says a
tree "is destroyed by recursively releasing all owned children"). The first
argument is recursion fuel. Deleting the null pointer is a no-op, as in
C++. -/
def deleteTree : Nat → Heap → Option Nat → Heap
  | _, h, none => h
  | 0, h, some _ => h
  | fuel + 1, h, some a =>
    match h a with
    | none => h
    | some n => (deleteTree fuel (deleteTree fuel (h.free a) n.left) n.right)

/-- Single-character symbol of an operator tag, as `TreeNode::toString`
renders it on operator nodes. -/
def opSymbol : Operator → String
  | .Plus => "+"
  | .Minus => "-"
  | .Times => "*"
  | .Divide => "/"
  | _ => ""

/-- Heap-level embedding of `ExprTree::prefixOrder`: render the subtree at
address `r`, then destroy the temporaries created for the two recursive
calls (each owns one child subtree). Returns the rendered string and the
heap after the call; `none` models dereferencing a dangling or null
pointer. The first argument is recursion fuel. -/
def prefixOrderH : Nat → Heap → Option Nat → Option (String × Heap)
  | _, _, none => none
  | 0, _, some _ => none
  | fuel + 1, h, some a =>
    match h a with
    | none => none
    | some n =>
      match n.op with
      | .Value => some (intToString n.value, h)
      | .NoOp => some ("", h)
      | _ =>
        (prefixOrderH fuel h n.left).bind fun lsh =>
          (prefixOrderH fuel lsh.2 n.right).bind fun rsh =>
            some (opSymbol n.op ++ " " ++ lsh.1 ++ " " ++ rsh.1,
              deleteTree fuel (deleteTree fuel rsh.2 n.left) n.right)

/-!
Helper lemmas: precedence facts, stack-splitting behaviour of the two pop
loops, and one-step unfoldings of the main conversion loop.
-/

theorem BinTok.ne_open {t : String} (h : BinTok t) : t ≠ "(" := by
  rcases h with h | h | h | h <;> subst h <;> decide

theorem BinTok.one_le_prec {t : String} (h : BinTok t) : 1 ≤ getPrecedence t := by
  rcases h with h | h | h | h <;> subst h <;> decide

theorem Barrier.mono {d d' : Nat} {st : List String} (hd : d ≤ d')
    (h : Barrier d st) : Barrier d' st := by
  cases st with
  | nil => trivial
  | cons t st => exact Nat.lt_of_lt_of_le h (by omega)

theorem popGE_split (p : Nat) (pend st out : List String)
    (hpend : ∀ q ∈ pend, p ≤ getPrecedence q)
    (hst : ∀ q, st.head? = some q → getPrecedence q < p) :
    popGE p (pend ++ st) out = (st, out ++ pend) := by
  induction pend generalizing out with
  | nil =>
    cases st with
    | nil => simp [popGE]
    | cons q st' =>
      have := hst q rfl
      simp [popGE, Nat.not_le.mpr this]
  | cons q pend' ih =>
    have hq : p ≤ getPrecedence q := hpend q (by simp)
    simp only [List.cons_append, popGE, if_pos hq, List.append_eq]
    rw [ih (out ++ [q]) (fun r hr => hpend r (List.mem_cons_of_mem _ hr))]
    simp

theorem popToParen_split (pend st out : List String)
    (hpend : ∀ q ∈ pend, q ≠ "(") :
    popToParen (pend ++ "(" :: st) out = some (st, out ++ pend) := by
  induction pend generalizing out with
  | nil => simp [popToParen]
  | cons q pend' ih =>
    have hq : q ≠ "(" := hpend q (by simp)
    simp only [List.cons_append, popToParen, if_neg hq, List.append_eq]
    rw [ih (out ++ [q]) (fun r hr => hpend r (List.mem_cons_of_mem _ hr))]
    simp

theorem toPostfixLoop_open (ts st out) :
    toPostfixLoop ("(" :: ts) st out = toPostfixLoop ts ("(" :: st) out := by
  simp [toPostfixLoop]

theorem toPostfixLoop_close {st out st' out'} (ts)
    (h : popToParen st out = some (st', out')) :
    toPostfixLoop (")" :: ts) st out = toPostfixLoop ts st' out' := by
  simp [toPostfixLoop, h]

theorem toPostfixLoop_num {t : String} (ts st out) (h : is_number t = true)
    (h1 : t ≠ "(") (h2 : t ≠ ")") :
    toPostfixLoop (t :: ts) st out = toPostfixLoop ts st (out ++ [t]) := by
  simp [toPostfixLoop, h, h1, h2]

theorem toPostfixLoop_op {t : String} (ts st out) (h1 : t ≠ "(")
    (h2 : t ≠ ")") (h3 : is_number t = false) :
    toPostfixLoop (t :: ts) st out =
      toPostfixLoop ts (t :: (popGE (getPrecedence t) st out).1)
        (popGE (getPrecedence t) st out).2 := by
  simp [toPostfixLoop, h1, h2, h3]

theorem is_number_ne_open {t : String} (h : is_number t = true) : t ≠ "(" := by
  intro he; subst he; exact absurd h (by decide)

theorem is_number_ne_close {t : String} (h : is_number t = true) : t ≠ ")" := by
  intro he; subst he; exact absurd h (by decide)

/-- Invariant of the shunting-yard scan: processing a level-`d` phrase from a
stack whose top is below the phrase's operator precedences appends the
phrase's postfix rendering to the output, except for a trailing group of
pending operators (of precedence at least `d + 1`) that is left on top of
the stack, to be flushed by whatever follows the phrase. -/
theorem shunt_invariant {d : Nat} {ts : List String} {e : Expr}
    (h : Parses d ts e) :
    ∀ rest st out, Barrier d st →
      ∃ emit pend, e.postfixTokens = emit ++ pend ∧
        (∀ p ∈ pend, BinTok p ∧ d + 1 ≤ getPrecedence p) ∧
        toPostfixLoop (ts ++ rest) st out =
          toPostfixLoop rest (pend ++ st) (out ++ emit) := by
  induction h with
  | num s hs =>
    intro rest st out _
    refine ⟨[s], [], by simp [Expr.postfixTokens], by simp, ?_⟩
    rw [List.singleton_append,
      toPostfixLoop_num rest st out hs (is_number_ne_open hs)
        (is_number_ne_close hs)]
    simp
  | paren h ih =>
    rename_i ts e
    intro rest st out _
    obtain ⟨emit, pend, hpost, hpend, heq⟩ :=
      ih (")" :: rest) ("(" :: st) out (by simp [Barrier, getPrecedence])
    refine ⟨emit ++ pend, [], by simp [hpost], by simp, ?_⟩
    have hsplit : ("(" :: ts ++ [")"]) ++ rest = "(" :: (ts ++ (")" :: rest)) := by
      simp
    rw [hsplit, toPostfixLoop_open, heq,
      toPostfixLoop_close rest
        (popToParen_split pend st (out ++ emit)
          (fun q hq => (hpend q hq).1.ne_open))]
    simp
  | atomT h ih =>
    intro rest st out hb
    obtain ⟨emit, pend, hpost, hpend, heq⟩ :=
      ih rest st out (hb.mono (by omega))
    exact ⟨emit, pend, hpost,
      fun p hp => ⟨(hpend p hp).1, Nat.le_trans (by omega) (hpend p hp).2⟩, heq⟩
  | termE h ih =>
    intro rest st out hb
    obtain ⟨emit, pend, hpost, hpend, heq⟩ :=
      ih rest st out (hb.mono (by omega))
    exact ⟨emit, pend, hpost,
      fun p hp => ⟨(hpend p hp).1, Nat.le_trans (by omega) (hpend p hp).2⟩, heq⟩
  | mulT h1 h2 ih1 ih2 =>
    rename_i ts1 ts2 l r
    intro rest st out hb
    obtain ⟨e1, p1, hp1, hpend1, heq1⟩ := ih1 ("*" :: (ts2 ++ rest)) st out hb
    have hsplit : (ts1 ++ "*" :: ts2) ++ rest = ts1 ++ ("*" :: (ts2 ++ rest)) := by
      simp
    have hpop : popGE (getPrecedence "*") (p1 ++ st) (out ++ e1) =
        (st, (out ++ e1) ++ p1) := by
      refine popGE_split _ _ _ _ (fun q hq => ?_) (fun q hq => ?_)
      · exact le_of_eq_of_le (by decide) (hpend1 q hq).2
      · cases st with
        | nil => simp at hq
        | cons s st' =>
          simp at hq
          subst hq
          exact Nat.lt_of_lt_of_eq hb (by decide)
    obtain ⟨e2, p2, hp2, hpend2, heq2⟩ :=
      ih2 rest ("*" :: st) ((out ++ e1) ++ p1) (by simp [Barrier]; decide)
    refine ⟨e1 ++ p1 ++ e2, p2 ++ ["*"], ?_, ?_, ?_⟩
    · simp only [Expr.postfixTokens, hp1, hp2]
      simp
    · intro p hp
      rcases List.mem_append.mp hp with hp | hp
      · exact ⟨(hpend2 p hp).1, Nat.le_trans (by omega) (hpend2 p hp).2⟩
      · simp at hp
        subst hp
        exact ⟨Or.inr (Or.inr (Or.inl rfl)), by decide⟩
    · rw [hsplit, heq1,
        toPostfixLoop_op (ts2 ++ rest) (p1 ++ st) (out ++ e1)
          (by decide) (by decide) (by decide),
        hpop]
      rw [heq2]
      simp
  | divT h1 h2 ih1 ih2 =>
    rename_i ts1 ts2 l r
    intro rest st out hb
    obtain ⟨e1, p1, hp1, hpend1, heq1⟩ := ih1 ("/" :: (ts2 ++ rest)) st out hb
    have hsplit : (ts1 ++ "/" :: ts2) ++ rest = ts1 ++ ("/" :: (ts2 ++ rest)) := by
      simp
    have hpop : popGE (getPrecedence "/") (p1 ++ st) (out ++ e1) =
        (st, (out ++ e1) ++ p1) := by
      refine popGE_split _ _ _ _ (fun q hq => ?_) (fun q hq => ?_)
      · exact le_of_eq_of_le (by decide) (hpend1 q hq).2
      · cases st with
        | nil => simp at hq
        | cons s st' =>
          simp at hq
          subst hq
          exact Nat.lt_of_lt_of_eq hb (by decide)
    obtain ⟨e2, p2, hp2, hpend2, heq2⟩ :=
      ih2 rest ("/" :: st) ((out ++ e1) ++ p1) (by simp [Barrier]; decide)
    refine ⟨e1 ++ p1 ++ e2, p2 ++ ["/"], ?_, ?_, ?_⟩
    · simp only [Expr.postfixTokens, hp1, hp2]
      simp
    · intro p hp
      rcases List.mem_append.mp hp with hp | hp
      · exact ⟨(hpend2 p hp).1, Nat.le_trans (by omega) (hpend2 p hp).2⟩
      · simp at hp
        subst hp
        exact ⟨Or.inr (Or.inr (Or.inr rfl)), by decide⟩
    · rw [hsplit, heq1,
        toPostfixLoop_op (ts2 ++ rest) (p1 ++ st) (out ++ e1)
          (by decide) (by decide) (by decide),
        hpop]
      rw [heq2]
      simp
  | addE h1 h2 ih1 ih2 =>
    rename_i ts1 ts2 l r
    intro rest st out hb
    obtain ⟨e1, p1, hp1, hpend1, heq1⟩ := ih1 ("+" :: (ts2 ++ rest)) st out hb
    have hsplit : (ts1 ++ "+" :: ts2) ++ rest = ts1 ++ ("+" :: (ts2 ++ rest)) := by
      simp
    have hpop : popGE (getPrecedence "+") (p1 ++ st) (out ++ e1) =
        (st, (out ++ e1) ++ p1) := by
      refine popGE_split _ _ _ _ (fun q hq => ?_) (fun q hq => ?_)
      · exact le_of_eq_of_le (by decide) (hpend1 q hq).2
      · cases st with
        | nil => simp at hq
        | cons s st' =>
          simp at hq
          subst hq
          exact Nat.lt_of_lt_of_eq hb (by decide)
    obtain ⟨e2, p2, hp2, hpend2, heq2⟩ :=
      ih2 rest ("+" :: st) ((out ++ e1) ++ p1) (by simp [Barrier]; decide)
    refine ⟨e1 ++ p1 ++ e2, p2 ++ ["+"], ?_, ?_, ?_⟩
    · simp only [Expr.postfixTokens, hp1, hp2]
      simp
    · intro p hp
      rcases List.mem_append.mp hp with hp | hp
      · exact ⟨(hpend2 p hp).1, Nat.le_trans (by omega) (hpend2 p hp).2⟩
      · simp at hp
        subst hp
        exact ⟨Or.inl rfl, by decide⟩
    · rw [hsplit, heq1,
        toPostfixLoop_op (ts2 ++ rest) (p1 ++ st) (out ++ e1)
          (by decide) (by decide) (by decide),
        hpop]
      rw [heq2]
      simp
  | subE h1 h2 ih1 ih2 =>
    rename_i ts1 ts2 l r
    intro rest st out hb
    obtain ⟨e1, p1, hp1, hpend1, heq1⟩ := ih1 ("-" :: (ts2 ++ rest)) st out hb
    have hsplit : (ts1 ++ "-" :: ts2) ++ rest = ts1 ++ ("-" :: (ts2 ++ rest)) := by
      simp
    have hpop : popGE (getPrecedence "-") (p1 ++ st) (out ++ e1) =
        (st, (out ++ e1) ++ p1) := by
      refine popGE_split _ _ _ _ (fun q hq => ?_) (fun q hq => ?_)
      · exact le_of_eq_of_le (by decide) (hpend1 q hq).2
      · cases st with
        | nil => simp at hq
        | cons s st' =>
          simp at hq
          subst hq
          exact Nat.lt_of_lt_of_eq hb (by decide)
    obtain ⟨e2, p2, hp2, hpend2, heq2⟩ :=
      ih2 rest ("-" :: st) ((out ++ e1) ++ p1) (by simp [Barrier]; decide)
    refine ⟨e1 ++ p1 ++ e2, p2 ++ ["-"], ?_, ?_, ?_⟩
    · simp only [Expr.postfixTokens, hp1, hp2]
      simp
    · intro p hp
      rcases List.mem_append.mp hp with hp | hp
      · exact ⟨(hpend2 p hp).1, Nat.le_trans (by omega) (hpend2 p hp).2⟩
      · simp at hp
        subst hp
        exact ⟨Or.inr (Or.inl rfl), by decide⟩
    · rw [hsplit, heq1,
        toPostfixLoop_op (ts2 ++ rest) (p1 ++ st) (out ++ e1)
          (by decide) (by decide) (by decide),
        hpop]
      rw [heq2]
      simp

/-- The infix-to-postfix converter maps a well-formed infix token sequence
to exactly the postfix rendering of its abstract syntax. -/
theorem toPostfixConv_correct {ts : List String} {e : Expr}
    (h : Parses 0 ts e) : toPostfixConv ts = some e.postfixTokens := by
  obtain ⟨emit, pend, hpost, hpend, heq⟩ :=
    shunt_invariant h [] [] [] trivial
  unfold toPostfixConv
  rw [show ts = ts ++ [] by simp, heq]
  simp [toPostfixLoop, hpost]

/-- Every expression generated by the grammar has all-digit number
leaves. -/
theorem Parses.wf {d : Nat} {ts : List String} {e : Expr}
    (h : Parses d ts e) : e.wf := by
  induction h with
  | num s hs => exact hs
  | paren _ ih => exact ih
  | atomT _ ih => exact ih
  | termE _ ih => exact ih
  | mulT _ _ ih1 ih2 => exact ⟨ih1, ih2⟩
  | divT _ _ ih1 ih2 => exact ⟨ih1, ih2⟩
  | addE _ _ ih1 ih2 => exact ⟨ih1, ih2⟩
  | subE _ _ ih1 ih2 => exact ⟨ih1, ih2⟩

theorem buildLoop_num {t : String} (ts ns) (h : is_number t = true) :
    buildLoop (t :: ts) ns =
      buildLoop ts (.mk .Value (to_number t) none none :: ns) := by
  simp [buildLoop, h]

theorem buildLoop_op {t : String} (ts r l tl) (h : is_number t = false) :
    buildLoop (t :: ts) (r :: l :: tl) =
      buildLoop ts
        (((createOperatorNode t).setRightChild (some r)).setLeftChild
          (some l) :: tl) := by
  simp [buildLoop, h]

/-- Running the node-stack loop over the postfix rendering of a well-formed
expression pushes exactly the expression's tree. -/
theorem buildLoop_postfixTokens {e : Expr} (hwf : e.wf) :
    ∀ rest ns, buildLoop (e.postfixTokens ++ rest) ns =
      buildLoop rest (treeOf e :: ns) := by
  induction e with
  | num s =>
    intro rest ns
    rw [Expr.postfixTokens, List.singleton_append, buildLoop_num rest ns hwf]
    rfl
  | add l r ihl ihr =>
    intro rest ns
    obtain ⟨hl, hr⟩ := hwf
    rw [Expr.postfixTokens]
    rw [show (l.postfixTokens ++ r.postfixTokens ++ ["+"]) ++ rest =
        l.postfixTokens ++ (r.postfixTokens ++ ("+" :: rest)) by simp]
    rw [ihl hl, ihr hr, buildLoop_op rest _ _ ns (by decide)]
    rfl
  | sub l r ihl ihr =>
    intro rest ns
    obtain ⟨hl, hr⟩ := hwf
    rw [Expr.postfixTokens]
    rw [show (l.postfixTokens ++ r.postfixTokens ++ ["-"]) ++ rest =
        l.postfixTokens ++ (r.postfixTokens ++ ("-" :: rest)) by simp]
    rw [ihl hl, ihr hr, buildLoop_op rest _ _ ns (by decide)]
    rfl
  | mul l r ihl ihr =>
    intro rest ns
    obtain ⟨hl, hr⟩ := hwf
    rw [Expr.postfixTokens]
    rw [show (l.postfixTokens ++ r.postfixTokens ++ ["*"]) ++ rest =
        l.postfixTokens ++ (r.postfixTokens ++ ("*" :: rest)) by simp]
    rw [ihl hl, ihr hr, buildLoop_op rest _ _ ns (by decide)]
    rfl
  | div l r ihl ihr =>
    intro rest ns
    obtain ⟨hl, hr⟩ := hwf
    rw [Expr.postfixTokens]
    rw [show (l.postfixTokens ++ r.postfixTokens ++ ["/"]) ++ rest =
        l.postfixTokens ++ (r.postfixTokens ++ ("/" :: rest)) by simp]
    rw [ihl hl, ihr hr, buildLoop_op rest _ _ ns (by decide)]
    rfl

/-- `buildTree` on a well-formed infix token sequence succeeds and builds
the expression's tree, wrapped by the size-caching constructor. -/
theorem buildTree_parses {ts : List String} {e : Expr} (h : Parses 0 ts e) :
    ExprTree.buildTree ts = some (ExprTree.ofRoot (some (treeOf e))) := by
  have hb : buildLoop e.postfixTokens [] = some [treeOf e] := by
    have hx := buildLoop_postfixTokens h.wf [] []
    simpa [buildLoop] using hx
  unfold ExprTree.buildTree
  rw [toPostfixConv_correct h]
  simp [hb]

/-- Evaluating the tree of an expression agrees with the reference
semantics. -/
theorem evaluate_treeOf (e : Expr) :
    ExprTree.evaluate (some (treeOf e)) = refEval e := by
  induction e with
  | num s => simp [treeOf, ExprTree.evaluate, refEval]
  | add l r ihl ihr => simp [treeOf, ExprTree.evaluate, refEval, ihl, ihr]
  | sub l r ihl ihr => simp [treeOf, ExprTree.evaluate, refEval, ihl, ihr]
  | mul l r ihl ihr => simp [treeOf, ExprTree.evaluate, refEval, ihl, ihr]
  | div l r ihl ihr => simp [treeOf, ExprTree.evaluate, refEval, ihl, ihr]

/-- The size computed at construction for the tree of an expression is the
number of its operands and operators. -/
theorem countSize_treeOf (e : Expr) :
    countSize (some (treeOf e)) = e.numNodes := by
  induction e with
  | num s => simp [treeOf, countSize, Expr.numNodes]
  | add l r ihl ihr => simp [treeOf, countSize, Expr.numNodes, ihl, ihr]
  | sub l r ihl ihr => simp [treeOf, countSize, Expr.numNodes, ihl, ihr]
  | mul l r ihl ihr => simp [treeOf, countSize, Expr.numNodes, ihl, ihr]
  | div l r ihl ihr => simp [treeOf, countSize, Expr.numNodes, ihl, ihr]

/-- The token is one of the four binary operator symbols (Boolean form). -/
def isOpTok (t : String) : Bool :=
  t = "+" || t = "-" || t = "*" || t = "/"

/-- Number of tokens that are numbers or operators (parentheses and any
other characters excluded). -/
def countNumOps (ts : List String) : Nat :=
  (ts.filter (fun t => is_number t || isOpTok t)).length

theorem postfixTokens_length (e : Expr) :
    (e.postfixTokens.length : Int) = e.numNodes := by
  induction e with
  | num s => simp [Expr.postfixTokens, Expr.numNodes]
  | add l r ihl ihr =>
    simp [Expr.postfixTokens, Expr.numNodes, ← ihl, ← ihr]; omega
  | sub l r ihl ihr =>
    simp [Expr.postfixTokens, Expr.numNodes, ← ihl, ← ihr]; omega
  | mul l r ihl ihr =>
    simp [Expr.postfixTokens, Expr.numNodes, ← ihl, ← ihr]; omega
  | div l r ihl ihr =>
    simp [Expr.postfixTokens, Expr.numNodes, ← ihl, ← ihr]; omega

theorem countNumOps_append (ts1 ts2 : List String) :
    countNumOps (ts1 ++ ts2) = countNumOps ts1 + countNumOps ts2 := by
  simp [countNumOps, List.filter_append]

theorem countNumOps_cons_op (t : String) (ts : List String)
    (h : (is_number t || isOpTok t) = true) :
    countNumOps (t :: ts) = countNumOps ts + 1 := by
  simp [countNumOps, List.filter_cons, h]

/-- On a well-formed infix token sequence, the number of number and operator
tokens equals the length of the postfix rendering (parentheses are the only
other tokens, and they are dropped). -/
theorem countNumOps_parses {d : Nat} {ts : List String} {e : Expr}
    (h : Parses d ts e) : countNumOps ts = e.postfixTokens.length := by
  induction h with
  | num s hs => simp [countNumOps, Expr.postfixTokens, hs]
  | paren h ih =>
    have h1 : (is_number "(" || isOpTok "(") = false := by decide
    have h2 : (is_number ")" || isOpTok ")") = false := by decide
    simpa [countNumOps, List.filter_append, List.filter_cons, h1, h2] using ih
  | atomT h ih => exact ih
  | termE h ih => exact ih
  | mulT h1 h2 ih1 ih2 =>
    rw [countNumOps_append, countNumOps_cons_op "*" _ (by decide), ih1, ih2]
    simp [Expr.postfixTokens]
  | divT h1 h2 ih1 ih2 =>
    rw [countNumOps_append, countNumOps_cons_op "/" _ (by decide), ih1, ih2]
    simp [Expr.postfixTokens]
  | addE h1 h2 ih1 ih2 =>
    rw [countNumOps_append, countNumOps_cons_op "+" _ (by decide), ih1, ih2]
    simp [Expr.postfixTokens]
  | subE h1 h2 ih1 ih2 =>
    rw [countNumOps_append, countNumOps_cons_op "-" _ (by decide), ih1, ih2]
    simp [Expr.postfixTokens]

/-- The tokeniser ignores exactly the space character: folding the scan step
over the characters is the same as folding it over the characters with the
spaces removed. -/
theorem tokenise_filter_space (cs : List Char) :
    ∀ vec, List.foldl tokeniseStep vec cs =
      List.foldl tokeniseStep vec (cs.filter (fun c => !(c = ' '))) := by
  induction cs with
  | nil => intro vec; rfl
  | cons c cs ih =>
    intro vec
    by_cases hc : c = ' '
    · subst hc
      simp only [List.foldl_cons, List.filter_cons]
      rw [show tokeniseStep vec ' ' = vec by simp [tokeniseStep]]
      simpa using ih vec
    · simp only [List.foldl_cons, List.filter_cons, hc]
      simpa [hc] using ih (tokeniseStep vec c)

/-- Token shape invariant of the tokeniser: every token it produces is
non-empty, and every token longer than one character is all digits. -/
def TokShape (tok : String) : Prop :=
  tok.data ≠ [] ∧ (1 < tok.data.length → tok.data.all isdigit = true)

theorem tokeniseStep_shape {vec : List String} {c : Char}
    (h : ∀ tok ∈ vec, TokShape tok) :
    ∀ tok ∈ tokeniseStep vec c, TokShape tok := by
  intro tok htok
  by_cases hc : c = ' '
  · simp [tokeniseStep, hc] at htok
    exact h tok htok
  · cases hlast : vec.getLast? with
    | none =>
      simp only [tokeniseStep, hc, if_neg hc, hlast] at htok
      rcases List.mem_append.mp htok with hm | hm
      · exact h tok hm
      · simp at hm
        subst hm
        exact ⟨by simp, by simp⟩
    | some lastTok =>
      by_cases hdig : (isdigit c && is_number lastTok) = true
      · simp only [tokeniseStep, hc, if_neg hc, hlast, hdig, if_pos] at htok
        rcases List.mem_append.mp htok with hm | hm
        · exact h tok (List.dropLast_sublist vec |>.mem hm)
        · simp at hm
          subst hm
          obtain ⟨hcd, hnum⟩ := Bool.and_eq_true_iff.mp hdig
          have hall : lastTok.data.all isdigit = true :=
            (Bool.and_eq_true_iff.mp hnum).2
          refine ⟨?_, fun _ => ?_⟩
          · simp [String.data_push]
          · rw [String.data_push, List.all_append]
            simp [hall, hcd]
      · simp only [tokeniseStep, hc, if_neg hc, hlast, hdig, if_neg,
          Bool.not_eq_true] at htok
        rcases List.mem_append.mp htok with hm | hm
        · exact h tok hm
        · simp at hm
          subst hm
          exact ⟨by simp, by simp⟩

theorem tokenise_shape_aux (cs : List Char) :
    ∀ vec, (∀ tok ∈ vec, TokShape tok) →
      ∀ tok ∈ List.foldl tokeniseStep vec cs, TokShape tok := by
  induction cs with
  | nil => intro vec h; exact h
  | cons c cs ih =>
    intro vec h
    exact ih (tokeniseStep vec c) (tokeniseStep_shape h)

/-- The operator pop loop is exactly a takeWhile/dropWhile split of the
stack at the first entry of lower precedence. -/
theorem popGE_eq_takeWhile_dropWhile (p : Nat) (st : List String) :
    ∀ out, popGE p st out =
      (st.dropWhile (fun q => p ≤ getPrecedence q),
        out ++ st.takeWhile (fun q => p ≤ getPrecedence q)) := by
  induction st with
  | nil => intro out; simp [popGE]
  | cons t st ih =>
    intro out
    by_cases h : p ≤ getPrecedence t
    · simp only [popGE, if_pos h, List.dropWhile_cons, List.takeWhile_cons,
        decide_eq_true h, ih (out ++ [t])]
      simp
    · simp only [popGE, if_neg h, List.dropWhile_cons, List.takeWhile_cons,
        decide_eq_false h]
      simp

/-!
The claims.
-/

/-- C1: for every well-formed infix token sequence (one generated by the
standard grammar with precedence and left associativity), building the tree
and evaluating it returns the mathematically correct integer result, with
truncating division. -/
theorem buildTree_evaluate_correct (ts : List String) (e : Expr) (v : Int)
    (h : Parses 0 ts e) (hv : refEval e = some v) :
    (ExprTree.buildTree ts).bind ExprTree.evaluateWholeTree = some v := by
  rw [buildTree_parses h]
  simpa [ExprTree.evaluateWholeTree, ExprTree.ofRoot, evaluate_treeOf] using hv

/-- Witness for C1: the spec's own precedence example, `3+4*2` evaluating
to `11`. -/
theorem buildTree_evaluate_correct_witness :
    (ExprTree.buildTree (ExprTree.tokenise "3+4*2")).bind
      ExprTree.evaluateWholeTree = some 11 := by
  have hp : Parses 0 (ExprTree.tokenise "3+4*2")
      (Expr.add (Expr.num "3") (Expr.mul (Expr.num "4") (Expr.num "2"))) :=
    Parses.addE (Parses.termE (Parses.atomT (Parses.num "3" (by decide))))
      (Parses.mulT (Parses.atomT (Parses.num "4" (by decide)))
        (Parses.num "2" (by decide)))
  exact buildTree_evaluate_correct _ _ 11 hp (by decide)

/-- C2: the code does not fail with a defined DivisionByZero error on
`5/0`; it executes a C++ integer division by zero, which is undefined
behaviour (modelled `none`), so no defined error value is ever produced. -/
theorem divide_by_zero_no_defined_error :
    (ExprTree.buildTree (ExprTree.tokenise "5/0")).bind
      ExprTree.evaluateWholeTree = none := by
  have h : ExprTree.buildTree (ExprTree.tokenise "5/0") =
      some (ExprTree.ofRoot (some (.mk .Divide 0 (some (.mk .Value 5 none none))
        (some (.mk .Value 0 none none))))) := rfl
  rw [h]
  simp [ExprTree.evaluateWholeTree, ExprTree.ofRoot, ExprTree.evaluate]

/-- C3: on the empty tree the code does not raise an explicit EmptyTree
error; `evaluateWholeTree` and all three renderers dereference the null
root, which is undefined behaviour (modelled `none`). -/
theorem empty_tree_operations_undefined :
    ExprTree.new.evaluateWholeTree = none ∧
    ExprTree.new.prefixOrder = none ∧
    ExprTree.new.infixOrder = none ∧
    ExprTree.new.postfixOrder = none := by
  refine ⟨?_, ?_, ?_, ?_⟩
  · simp [ExprTree.new, ExprTree.evaluateWholeTree, ExprTree.evaluate]
  · simp [ExprTree.new, ExprTree.prefixOrder, prefixOrderN]
  · simp [ExprTree.new, ExprTree.infixOrder, infixOrderN]
  · simp [ExprTree.new, ExprTree.postfixOrder, postfixOrderN]

/-- C4: on malformed input the code does not fail with a defined
MalformedExpression error; an unmatched `)` makes `to_postfix` call `top`
on an empty stack, and a lone operator makes `buildTree` call `top` on a
stack with too few nodes — both undefined behaviour (modelled `none`),
not defined failures. -/
theorem malformed_input_stack_underflow :
    toPostfixConv [")"] = none ∧ ExprTree.buildTree ["+"] = none := by
  exact ⟨rfl, rfl⟩

/-- C5: when the converter scans an operator token (not a parenthesis, not
a number), it pops to the output exactly the maximal prefix of the stack
whose precedences are greater than or equal to the scanned operator's, then
pushes the scanned operator; consequently equal-precedence operators
associate left to right, and `8-3-2` evaluates to `3`. -/
theorem operator_scan_pops_geq_precedence :
    (∀ (t : String) ts st out, t ≠ "(" → t ≠ ")" → is_number t = false →
      toPostfixLoop (t :: ts) st out =
        toPostfixLoop ts
          (t :: st.dropWhile (fun q => getPrecedence t ≤ getPrecedence q))
          (out ++ st.takeWhile (fun q => getPrecedence t ≤ getPrecedence q))) ∧
    (ExprTree.buildTree (ExprTree.tokenise "8-3-2")).bind
      ExprTree.evaluateWholeTree = some 3 := by
  constructor
  · intro t ts st out h1 h2 h3
    rw [toPostfixLoop_op ts st out h1 h2 h3,
      popGE_eq_takeWhile_dropWhile (getPrecedence t) st out]
  · have h : ExprTree.buildTree (ExprTree.tokenise "8-3-2") =
        some (ExprTree.ofRoot (some (.mk .Minus 0
          (some (.mk .Minus 0 (some (.mk .Value 8 none none))
            (some (.mk .Value 3 none none))))
          (some (.mk .Value 2 none none))))) := rfl
    rw [h]
    simp [ExprTree.evaluateWholeTree, ExprTree.ofRoot, ExprTree.evaluate]

/-- Witness for C5: scanning `-` over the stack `["-", "("]` pops the
equal-precedence `-` and stops at the `(`. -/
theorem operator_scan_pops_geq_precedence_witness :
    toPostfixLoop ["-"] ["-", "("] [] =
      toPostfixLoop [] ["-", "("] ["-"] := by
  have h := operator_scan_pops_geq_precedence.1 "-" [] ["-", "("] []
    (by decide) (by decide) (by decide)
  simpa using h

/-- C6: for a well-formed expression string, the size cached by `buildTree`
equals the number of number tokens plus operator tokens (parentheses
contribute no nodes); the cached size is `countSize` of the root computed
at construction, and the empty tree has size `0`. -/
theorem size_counts_operands_and_operators :
    (∀ (expr : String) (e : Expr), Parses 0 (ExprTree.tokenise expr) e →
      (ExprTree.buildTree (ExprTree.tokenise expr)).map ExprTree.size =
        some ((countNumOps (ExprTree.tokenise expr) : Int))) ∧
    (∀ r, (ExprTree.ofRoot r).size = countSize r) ∧
    ExprTree.new.size = 0 := by
  refine ⟨?_, fun r => rfl, by simp [ExprTree.new, ExprTree.size, countSize]⟩
  intro expr e h
  rw [buildTree_parses h]
  have h1 : (ExprTree.ofRoot (some (treeOf e))).size = countSize (some (treeOf e)) := rfl
  have h2 : countNumOps (ExprTree.tokenise expr) = e.postfixTokens.length :=
    countNumOps_parses h
  simp only [Option.map_some', h1, countSize_treeOf, h2, postfixTokens_length]

/-- Witness for C6: the spec's example `(1+2)*3`, whose tree has five
nodes, three numbers plus two operators. -/
theorem size_counts_operands_and_operators_witness :
    (ExprTree.buildTree (ExprTree.tokenise "(1+2)*3")).map ExprTree.size =
      some 5 ∧ (5 : Int) = (countNumOps (ExprTree.tokenise "(1+2)*3") : Int) := by
  have hp : Parses 0 (ExprTree.tokenise "(1+2)*3")
      (Expr.mul (Expr.add (Expr.num "1") (Expr.num "2")) (Expr.num "3")) :=
    Parses.termE (Parses.mulT
      (Parses.atomT (Parses.paren
        (Parses.addE (Parses.termE (Parses.atomT (Parses.num "1" (by decide))))
          (Parses.atomT (Parses.num "2" (by decide))))))
      (Parses.num "3" (by decide)))
  have h := size_counts_operands_and_operators.1 "(1+2)*3" _ hp
  constructor
  · rw [h]; decide
  · decide

/-- Counterexample to C7: the tab character is whitespace, yet the
tokeniser keeps it as a token, so an all-whitespace input does not yield
the empty sequence. The scan only skips the space character `' '`. -/
theorem tokenise_keeps_tab_counterexample :
    ("\t".data.all Char.isWhitespace) = true ∧
      ExprTree.tokenise "\t" ≠ [] := by
  constructor
  · decide
  · decide

/-- C7 (amended): the tokeniser drops exactly the space character `' '`
(not all whitespace): inserting or removing spaces does not change its
output, and an input that is empty or consists only of spaces yields the
empty token sequence. -/
theorem tokenise_drops_only_spaces :
    (∀ s : String,
      ExprTree.tokenise ⟨s.data.filter (fun c => !(c = ' '))⟩ =
        ExprTree.tokenise s) ∧
    (∀ s : String, (∀ c ∈ s.data, c = ' ') → ExprTree.tokenise s = []) := by
  constructor
  · intro s
    rw [ExprTree.tokenise, ExprTree.tokenise]
    exact (tokenise_filter_space s.data []).symm
  · intro s hs
    rw [ExprTree.tokenise, tokenise_filter_space s.data []]
    rw [List.filter_eq_nil_iff.mpr (fun c hc => by simp [hs c hc])]
    rfl

/-- Witness for C7 (amended): a three-space string tokenises to nothing. -/
theorem tokenise_drops_only_spaces_witness :
    ExprTree.tokenise "   " = [] :=
  tokenise_drops_only_spaces.2 "   " (by decide)

/-- C8: for a well-formed token sequence whose parenthesis-free infix
rendering re-parses to the same tree (the precedence-unambiguous case),
re-tokenising and rebuilding the rendered string yields a tree with the
same evaluation result as the original tree. -/
theorem infixOrder_roundtrip_eval (ts : List String) (e e2 : Expr)
    (h : Parses 0 ts e) (t : ExprTree)
    (ht : ExprTree.buildTree ts = some t) (s : String)
    (hs : ExprTree.infixOrder t = some s)
    (h2 : Parses 0 (ExprTree.tokenise s) e2)
    (hsame : treeOf e2 = treeOf e) :
    ∃ t2, ExprTree.buildTree (ExprTree.tokenise s) = some t2 ∧
      ExprTree.evaluateWholeTree t2 = ExprTree.evaluateWholeTree t := by
  have hb := buildTree_parses h
  rw [ht] at hb
  have hteq : t = ExprTree.ofRoot (some (treeOf e)) := by
    injection hb
  subst hteq
  refine ⟨ExprTree.ofRoot (some (treeOf e2)), buildTree_parses h2, ?_⟩
  rw [hsame]

/-- Witness for C8: `1+2` renders as `"1 + 2"`, which re-parses to the
same tree and evaluates equally. -/
theorem infixOrder_roundtrip_eval_witness :
    ∃ t2, ExprTree.buildTree (ExprTree.tokenise "1 + 2") = some t2 ∧
      ExprTree.evaluateWholeTree t2 =
        ExprTree.evaluateWholeTree (ExprTree.ofRoot (some (.mk .Plus 0
          (some (.mk .Value 1 none none)) (some (.mk .Value 2 none none))))) := by
  have hp : Parses 0 (ExprTree.tokenise "1+2")
      (Expr.add (Expr.num "1") (Expr.num "2")) :=
    Parses.addE (Parses.termE (Parses.atomT (Parses.num "1" (by decide))))
      (Parses.atomT (Parses.num "2" (by decide)))
  have hp2 : Parses 0 (ExprTree.tokenise "1 + 2")
      (Expr.add (Expr.num "1") (Expr.num "2")) :=
    Parses.addE (Parses.termE (Parses.atomT (Parses.num "1" (by decide))))
      (Parses.atomT (Parses.num "2" (by decide)))
  have ht : ExprTree.buildTree (ExprTree.tokenise "1+2") =
      some (ExprTree.ofRoot (some (.mk .Plus 0
        (some (.mk .Value 1 none none)) (some (.mk .Value 2 none none))))) := rfl
  have hs : ExprTree.infixOrder (ExprTree.ofRoot (some (.mk .Plus 0
      (some (.mk .Value 1 none none)) (some (.mk .Value 2 none none))))) =
      some "1 + 2" := by
    simp [ExprTree.infixOrder, ExprTree.ofRoot, infixOrderN,
      TreeNode.toString, intToString, natChars]
  exact infixOrder_roundtrip_eval (ExprTree.tokenise "1+2") _ _ hp _ ht
    "1 + 2" hs hp2 rfl

/-- The three-node heap for the tree of `1 + 2`: a `Plus` root at address
`0` with `Value` children at addresses `1` and `2`. -/
def exampleHeap : Heap := fun a =>
  if a = 0 then some ⟨.Plus, 0, some 1, some 2⟩
  else if a = 1 then some ⟨.Value, 1, none, none⟩
  else if a = 2 then some ⟨.Value, 2, none, none⟩
  else none

/-- C9 is violated by the code: rendering the tree of `1 + 2` in prefix
order returns the correct string, but the temporary `ExprTree` objects
implicitly constructed around the two child pointers are destroyed at the
end of the call and `delete` the root's children: after the call the nodes
at addresses `1` and `2` are gone while the root still points at them. -/
theorem renderer_frees_children_of_root :
    (prefixOrderH 4 exampleHeap (some 0)).map
        (fun p => (p.1, p.2 0, p.2 1, p.2 2)) =
      some ("+ 1 2", some ⟨.Plus, 0, some 1, some 2⟩, none, none) := by
  decide

/-- C10: every token the tokeniser produces is non-empty; every token
longer than one character is all digits; hence every token that is not a
number is a single character — use-time classification is well defined. -/
theorem tokenise_token_shapes (s : String) :
    ∀ tok ∈ ExprTree.tokenise s,
      tok.data ≠ [] ∧ (1 < tok.data.length → tok.data.all isdigit = true) ∧
        (is_number tok = false → tok.data.length = 1) := by
  intro tok htok
  have hshape : TokShape tok :=
    tokenise_shape_aux s.data [] (by simp) tok htok
  obtain ⟨hne, hdig⟩ := hshape
  refine ⟨hne, hdig, fun hnum => ?_⟩
  by_contra hlen
  have h0 : tok.data.length ≠ 0 :=
    fun h => hne (List.eq_nil_of_length_eq_zero h)
  have hlen1 : 1 < tok.data.length := by omega
  have hall := hdig hlen1
  rw [is_number] at hnum
  simp [List.isEmpty_iff, hne, hall] at hnum

/-- Witness for C10: the tokens of `"12+"`. -/
theorem tokenise_token_shapes_witness :
    ("12" : String).data ≠ [] ∧
      (1 < ("12" : String).data.length →
        ("12" : String).data.all isdigit = true) ∧
      (is_number "12" = false → ("12" : String).data.length = 1) :=
  tokenise_token_shapes "12+" "12" (by decide)
